import Mathlib

/-!
# Verification of the fuse-mt core (inode table, setattr splitter, readdir pagination)

Shallow embedding of the core data structures and dispatcher handlers of the
`fuse-mt` crate:

* `src/inode_table.rs` — the bidirectional path↔inode map (`InodeTable`),
* `src/directory_cache.rs` — the synthetic directory-handle cache,
* `src/fusemt.rs` — the request dispatcher (`lookup`, `forget`, `getattr`,
  `setattr`, `readdir` handlers and the `get_path!` macro).

Modelling conventions:

* Rust paths (`Arc<PathBuf>`) are modelled as lists of components
  (`List String`); the root path `/` is the empty list, `Path::join` with a
  single file name is list append, `Path::parent` drops the last component
  (`none` for the root, mirroring `Path::parent` returning `None` for `/`).
* `HashMap` is modelled as an association list observed only through
  `assocGet` / `assocInsert` / `assocRemove`, with `insert` replacing any
  existing binding (HashMap semantics).
* Fallible code is `Option`-valued: a `none` result marks a Rust panic
  (out-of-bounds `Vec` index, `Option::unwrap` on `None`, a failed `assert!`,
  or the explicit `panic!` on duplicate path insertion).
* Machine integers (`u64`) are modelled as `Nat`; the only place where 64-bit
  wrapping matters for the claims is the `!(1 as Inode)` sentinel in
  `readdir`, written explicitly as `2 ^ 64 - 2`.
* The user filesystem (the `FilesystemMT` trait object) is an oracle
  structure of pure functions; a dispatcher handler returns the ordered list
  of user callbacks it invoked (`Call`) together with the reply it wrote.
-/

/-- A filesystem path, as a list of components. The root `/` is `[]`. -/
abbrev FsPath := List String

/-! ## Association-list model of `HashMap` -/

/-- First binding for a key, mirroring `HashMap::get`. -/
def assocGet {α β : Type} [DecidableEq α] : List (α × β) → α → Option β
  | [], _ => none
  | pr :: rest, k => if pr.1 = k then some pr.2 else assocGet rest k

/-- Remove all bindings for a key, mirroring `HashMap::remove`. -/
def assocRemove {α β : Type} [DecidableEq α] : List (α × β) → α → List (α × β)
  | [], _ => []
  | pr :: rest, k =>
    if pr.1 = k then assocRemove rest k else pr :: assocRemove rest k

/-- Insert a binding, replacing any existing one, mirroring `HashMap::insert`. -/
def assocInsert {α β : Type} [DecidableEq α] (l : List (α × β)) (k : α) (v : β) :
    List (α × β) :=
  (k, v) :: assocRemove l k

/-! ## The inode table (`src/inode_table.rs`) -/

/-- `InodeTableEntry`: one slot of the table (`path`, `lookups`, `generation`). -/
structure InodeTableEntry where
  path : Option FsPath
  lookups : Nat
  generation : Nat
deriving DecidableEq, Repr

/-- `InodeTable`: slot vector, FIFO free list (`VecDeque`), and the
path→index map (`by_path`). Inode numbers are slot index + 1. -/
structure InodeTable where
  table : List InodeTableEntry
  free_list : List Nat
  by_path : List (FsPath × Nat)
deriving DecidableEq, Repr

namespace InodeTable

/-- `InodeTable::new`: the table initially contains just the root `/` at
inode 1 (slot 0). -/
def new : InodeTable :=
  { table := [{ path := some [], lookups := 0, generation := 0 }]
    free_list := []
    by_path := [([], 0)] }

/-- `InodeTable::get_inode_entry`: pop the front of the free list (bumping the
slot's generation), or push a fresh slot. Returns the inode number, the
remaining free list, the updated slot vector, and the (updated) entry.
`none` marks the index panic on a corrupt free list. -/
def get_inode_entry (fl : List Nat) (tbl : List InodeTableEntry) :
    Option (Nat × List Nat × List InodeTableEntry × InodeTableEntry) :=
  match fl with
  | idx :: rest =>
    match tbl.get? idx with
    | some e =>
      let e' := { e with generation := e.generation + 1 }
      some (idx + 1, rest, tbl.set idx e', e')
    | none => none
  | [] =>
    let e : InodeTableEntry := { path := none, lookups := 0, generation := 0 }
    some (tbl.length + 1, [], tbl ++ [e], e)

/-- `InodeTable::add`: insert a fresh path with lookup count 1. `none` marks
the `panic!` on a duplicate path (the `previous.is_some()` check). -/
def add (t : InodeTable) (p : FsPath) : Option (Nat × Nat × InodeTable) :=
  match get_inode_entry t.free_list t.table with
  | none => none
  | some (inode, fl', tbl', e) =>
    match assocGet t.by_path p with
    | some _ => none
    | none =>
      some (inode, e.generation,
        { table := tbl'.set (inode - 1) { e with path := some p, lookups := 1 }
          free_list := fl'
          by_path := assocInsert t.by_path p (inode - 1) })

/-- `InodeTable::add_or_get`: return the existing mapping, or insert with
lookup count 0 (the slot's existing count, which is 0 for both fresh and
recycled slots). -/
def add_or_get (t : InodeTable) (p : FsPath) : Option (Nat × Nat × InodeTable) :=
  match assocGet t.by_path p with
  | some idx =>
    match t.table.get? idx with
    | some e => some (idx + 1, e.generation, t)
    | none => none
  | none =>
    match get_inode_entry t.free_list t.table with
    | none => none
    | some (inode, fl', tbl', e) =>
      some (inode, e.generation,
        { table := tbl'.set (inode - 1) { e with path := some p }
          free_list := fl'
          by_path := assocInsert t.by_path p (inode - 1) })

/-- `InodeTable::get_path`: `some r` is a normal return (`r` the Rust
`Option<Arc<PathBuf>>`); `none` marks the panic on `table[inode - 1]` for a
never-allocated inode (inode 0 underflows the index; an inode beyond the
vector is out of bounds). -/
def get_path (t : InodeTable) (inode : Nat) : Option (Option FsPath) :=
  if inode = 0 then none
  else
    match t.table.get? (inode - 1) with
    | some e => some e.path
    | none => none

/-- `InodeTable::get_inode`: path → inode number (index + 1). -/
def get_inode (t : InodeTable) (p : FsPath) : Option Nat :=
  match assocGet t.by_path p with
  | some idx => some (idx + 1)
  | none => none

/-- `InodeTable::lookup`: bump the lookup count; early no-op on inode 1.
`none` marks the index panic on an invalid inode. -/
def lookup (t : InodeTable) (inode : Nat) : Option InodeTable :=
  if inode = 1 then some t
  else if inode = 0 then none
  else
    match t.table.get? (inode - 1) with
    | some e =>
      some { t with table := t.table.set (inode - 1) { e with lookups := e.lookups + 1 } }
    | none => none

/-- `InodeTable::forget`: decrement the lookup count by `n`; on reaching 0,
tomb the slot (path → `None`), push its index on the back of the free list and
drop the `by_path` binding for the entry's path. Early-returns 1 for inode 1.
`none` marks the index panic, the `assert!(n <= entry.lookups)` failure, or
the `entry.path.unwrap()` panic on an already-free slot. -/
def forget (t : InodeTable) (inode n : Nat) : Option (Nat × InodeTable) :=
  if inode = 1 then some (1, t)
  else if inode = 0 then none
  else
    let idx := inode - 1
    match t.table.get? idx with
    | none => none
    | some e =>
      if n ≤ e.lookups then
        let lookups := e.lookups - n
        if lookups = 0 then
          match e.path with
          | none => none
          | some p =>
            some (0,
              { table := t.table.set idx { e with lookups := 0, path := none }
                free_list := t.free_list ++ [idx]
                by_path := assocRemove t.by_path p })
        else
          some (lookups,
            { t with table := t.table.set idx { e with lookups := lookups } })
      else none

/-- `InodeTable::rename`: move the `by_path` binding of `oldpath` to
`newpath` (replacing any binding `newpath` had) and rewrite the slot's path.
`none` marks the `unwrap` panic when `oldpath` is not mapped. -/
def rename (t : InodeTable) (oldpath newpath : FsPath) : Option InodeTable :=
  match assocGet t.by_path oldpath with
  | none => none
  | some idx =>
    match t.table.get? idx with
    | none => none
    | some e =>
      some { table := t.table.set idx { e with path := some newpath }
             free_list := t.free_list
             by_path := assocInsert (assocRemove t.by_path oldpath) newpath idx }

/-- `InodeTable::unlink`: drop the path→inode binding; the slot keeps its
path (the tombstone). -/
def unlink (t : InodeTable) (p : FsPath) : InodeTable :=
  { t with by_path := assocRemove t.by_path p }

end InodeTable

/-- The path field of slot `idx` of a slot vector (`none` also out of bounds). -/
def entryPath (tbl : List InodeTableEntry) (idx : Nat) : Option FsPath :=
  match tbl.get? idx with
  | some e => e.path
  | none => none

/-- The generation of slot `idx` of a slot vector, if the slot exists. -/
def entryGen (tbl : List InodeTableEntry) (idx : Nat) : Option Nat :=
  match tbl.get? idx with
  | some e => some e.generation
  | none => none

/-- The lookup count of slot `idx` of a slot vector, if the slot exists. -/
def entryLookups (tbl : List InodeTableEntry) (idx : Nat) : Option Nat :=
  match tbl.get? idx with
  | some e => some e.lookups
  | none => none

/-- The path field of slot `idx` (`none` also when `idx` is out of bounds). -/
def pathAt (t : InodeTable) (idx : Nat) : Option FsPath :=
  entryPath t.table idx

/-- The generation of slot `idx`, if it exists. -/
def genAt (t : InodeTable) (idx : Nat) : Option Nat :=
  entryGen t.table idx

/-- The lookup count of slot `idx`, if it exists. -/
def lookupsAt (t : InodeTable) (idx : Nat) : Option Nat :=
  entryLookups t.table idx

/-- The inode-table operations quantified over by the invariant claims. -/
inductive TableOp where
  | add (p : FsPath)
  | add_or_get (p : FsPath)
  | lookup (inode : Nat)
  | forget (inode n : Nat)
  | rename (oldpath newpath : FsPath)
  | unlink (p : FsPath)
deriving DecidableEq, Repr

/-- Apply one operation; `none` propagates a panic. -/
def applyOp (t : InodeTable) : TableOp → Option InodeTable
  | .add p => (t.add p).map (fun r => r.2.2)
  | .add_or_get p => (t.add_or_get p).map (fun r => r.2.2)
  | .lookup i => t.lookup i
  | .forget i n => (t.forget i n).map (fun r => r.2)
  | .rename p q => t.rename p q
  | .unlink p => some (t.unlink p)

/-- Apply a sequence of operations, stopping at the first panic. -/
def applyOps (t : InodeTable) : List TableOp → Option InodeTable
  | [] => some t
  | op :: rest =>
    match applyOp t op with
    | some t' => applyOps t' rest
    | none => none

example :
    (applyOps InodeTable.new [.add ["foo", "a"]]).bind
      (fun t => t.get_path 2) = some (some ["foo", "a"]) := by decide

example :
    (applyOps InodeTable.new
      [.add ["foo", "a"], .forget 2 1, .add ["foo", "c"]]).bind
      (fun t => genAt t 1) = some 1 := by decide

/-! ## Dispatcher data types (`src/fusemt.rs`) -/

/-- `libc::EINVAL` (dispatcher reply for an unresolvable inode). -/
def EINVAL : Nat := 22

/-- `libc::EIO` (dispatcher reply when `readdir` parent resolution fails). -/
def EIOVal : Nat := 5

/-- `libc::ENOSYS` (default reply of unimplemented `FilesystemMT` methods). -/
def ENOSYS : Nat := 38

/-- `fuse::FileType`. -/
inductive FileType where
  | Directory
  | RegularFile
  | Symlink
  | BlockDevice
  | CharDevice
  | NamedPipe
  | Socket
deriving DecidableEq, Repr

/-- `FileAttr`, reduced to the fields the dispatcher claims touch: the `ino`
stamped by the dispatcher and one representative payload field. -/
structure FileAttr where
  ino : Nat
  size : Nat
deriving DecidableEq, Repr

/-- `DirectoryEntry`: name and kind, as returned by the user's `readdir`. -/
structure DirectoryEntry where
  name : String
  kind : FileType
deriving DecidableEq, Repr

/-- One entry appended to the kernel's `ReplyDirectory` buffer:
`reply.add(ino, next_offset, kind, name)`. -/
structure DirItem where
  ino : Nat
  off : Nat
  kind : FileType
  name : String
deriving DecidableEq, Repr

/-- The reply a handler writes to the kernel. -/
inductive Reply where
  | attr (ttl : Nat) (a : FileAttr)
  | entry (ttl : Nat) (a : FileAttr) (generation : Nat)
  | dirOk (items : List DirItem)
  | error (e : Nat)
deriving DecidableEq, Repr

/-- A user callback invocation, recorded in order by the handlers.
(`RequestInfo` is passed through unchanged and is omitted.) -/
inductive Call where
  | chmod (p : FsPath) (fh : Option Nat) (mode : Nat)
  | chown (p : FsPath) (fh : Option Nat) (uid gid : Option Nat)
  | truncate (p : FsPath) (fh : Option Nat) (size : Nat)
  | utimens (p : FsPath) (fh : Option Nat) (atime mtime : Option Nat)
  | utimensMacos (p : FsPath) (fh : Option Nat) (crtime chgtime bkuptime flags : Option Nat)
  | getattr (p : FsPath) (fh : Option Nat)
  | userLookup (parent : FsPath) (name : String)
  | userReaddir (p : FsPath) (fh : Nat)
deriving DecidableEq, Repr

/-- The user filesystem (`FilesystemMT` trait object) as an oracle of pure
functions; timestamps are `Nat`. `lookup` returns `(ttl, attr, generation)`
(`ResultEntry`), matching the old-API `fusemt.rs` in this snapshot. -/
structure UserFS where
  chmod : FsPath → Option Nat → Nat → Except Nat Unit
  chown : FsPath → Option Nat → Option Nat → Option Nat → Except Nat Unit
  truncate : FsPath → Option Nat → Nat → Except Nat Unit
  utimens : FsPath → Option Nat → Option Nat → Option Nat → Except Nat Unit
  utimens_macos : FsPath → Option Nat → Option Nat → Option Nat → Option Nat →
    Option Nat → Except Nat Unit
  getattr : FsPath → Option Nat → Except Nat (Nat × FileAttr)
  lookup : FsPath → String → Except Nat (Nat × FileAttr × Nat)
  readdir : FsPath → Nat → Except Nat (List DirectoryEntry)

/-- All-default `FilesystemMT`: every operation replies `ENOSYS`. -/
def defaultFS : UserFS :=
  { chmod := fun _ _ _ => .error ENOSYS
    chown := fun _ _ _ _ => .error ENOSYS
    truncate := fun _ _ _ => .error ENOSYS
    utimens := fun _ _ _ _ => .error ENOSYS
    utimens_macos := fun _ _ _ _ _ _ => .error ENOSYS
    getattr := fun _ _ => .error ENOSYS
    lookup := fun _ _ => .error ENOSYS
    readdir := fun _ _ => .error ENOSYS }

/-! ## Directory cache (`src/directory_cache.rs`) -/

/-- `DirectoryCacheEntry`: the user's real handle and the optional cached
full listing. -/
structure DirectoryCacheEntry where
  fh : Nat
  entries : Option (List DirectoryEntry)
deriving DecidableEq, Repr

/-- `DirectoryCache`: synthetic key → entry (plus the wrapping key counter,
irrelevant to the claims under study). -/
structure DirectoryCache where
  next_key : Nat
  entries : List (Nat × DirectoryCacheEntry)
deriving DecidableEq, Repr

/-! ## Dispatcher handlers (`src/fusemt.rs`) -/

/-- Arguments of the kernel `setattr` request (all optional; times as `Nat`). -/
structure SetattrArgs where
  mode : Option Nat
  uid : Option Nat
  gid : Option Nat
  size : Option Nat
  atime : Option Nat
  mtime : Option Nat
  fh : Option Nat
  crtime : Option Nat
  chgtime : Option Nat
  bkuptime : Option Nat
  flags : Option Nat
deriving DecidableEq, Repr

/-- Trailing stage of `FuseMT::setattr`: after all sub-operations succeeded,
call `getattr(path, fh)` and reply with its result. -/
def stageGetattr (fs : UserFS) (path : FsPath) (a : SetattrArgs) : List Call × Reply :=
  match fs.getattr path a.fh with
  | .ok (ttl, attr) => ([.getattr path a.fh], .attr ttl attr)
  | .error e => ([.getattr path a.fh], .error e)

/-- `setattr` stage 5: `utimens_macos` if any of `crtime`, `chgtime`,
`bkuptime`, `flags` is present; early error return. -/
def stageUtimensMacos (fs : UserFS) (path : FsPath) (a : SetattrArgs) : List Call × Reply :=
  if a.crtime.isSome || a.chgtime.isSome || a.bkuptime.isSome || a.flags.isSome then
    match fs.utimens_macos path a.fh a.crtime a.chgtime a.bkuptime a.flags with
    | .error e => ([.utimensMacos path a.fh a.crtime a.chgtime a.bkuptime a.flags], .error e)
    | .ok _ =>
      match stageGetattr fs path a with
      | (cs, r) => (.utimensMacos path a.fh a.crtime a.chgtime a.bkuptime a.flags :: cs, r)
  else stageGetattr fs path a

/-- `setattr` stage 4: `utimens` if `atime` or `mtime` is present. -/
def stageUtimens (fs : UserFS) (path : FsPath) (a : SetattrArgs) : List Call × Reply :=
  if a.atime.isSome || a.mtime.isSome then
    match fs.utimens path a.fh a.atime a.mtime with
    | .error e => ([.utimens path a.fh a.atime a.mtime], .error e)
    | .ok _ =>
      match stageUtimensMacos fs path a with
      | (cs, r) => (.utimens path a.fh a.atime a.mtime :: cs, r)
  else stageUtimensMacos fs path a

/-- `setattr` stage 3: `truncate` if `size` is present. -/
def stageTruncate (fs : UserFS) (path : FsPath) (a : SetattrArgs) : List Call × Reply :=
  match a.size with
  | some s =>
    match fs.truncate path a.fh s with
    | .error e => ([.truncate path a.fh s], .error e)
    | .ok _ =>
      match stageUtimens fs path a with
      | (cs, r) => (.truncate path a.fh s :: cs, r)
  | none => stageUtimens fs path a

/-- `setattr` stage 2: `chown` if `uid` or `gid` is present. -/
def stageChown (fs : UserFS) (path : FsPath) (a : SetattrArgs) : List Call × Reply :=
  if a.uid.isSome || a.gid.isSome then
    match fs.chown path a.fh a.uid a.gid with
    | .error e => ([.chown path a.fh a.uid a.gid], .error e)
    | .ok _ =>
      match stageTruncate fs path a with
      | (cs, r) => (.chown path a.fh a.uid a.gid :: cs, r)
  else stageTruncate fs path a

/-- `setattr` stage 1: `chmod` if `mode` is present. -/
def stageChmod (fs : UserFS) (path : FsPath) (a : SetattrArgs) : List Call × Reply :=
  match a.mode with
  | some m =>
    match fs.chmod path a.fh m with
    | .error e => ([.chmod path a.fh m], .error e)
    | .ok _ =>
      match stageChown fs path a with
      | (cs, r) => (.chmod path a.fh m :: cs, r)
  | none => stageChown fs path a

/-- `FuseMT::setattr`: resolve the path (`get_path!`; `EINVAL` on a free
slot, `none` on the index panic), then run the five guarded sub-operations
in order with early error return, then `getattr`. -/
def setattrHandler (fs : UserFS) (t : InodeTable) (ino : Nat) (a : SetattrArgs) :
    Option (List Call × Reply) :=
  match t.get_path ino with
  | none => none
  | some none => some ([], .error EINVAL)
  | some (some path) => some (stageChmod fs path a)

/-- `FuseMT::getattr`: resolve the path, call the user's `getattr(path, None)`,
stamp `ino` into the returned attributes. -/
def getattrHandler (fs : UserFS) (t : InodeTable) (ino : Nat) :
    Option (List Call × Reply) :=
  match t.get_path ino with
  | none => none
  | some none => some ([], .error EINVAL)
  | some (some path) =>
    match fs.getattr path none with
    | .ok (ttl, attr) => some ([.getattr path none], .attr ttl { attr with ino := ino })
    | .error e => some ([.getattr path none], .error e)

/-- `FuseMT::lookup`: resolve the parent path, call the user's `lookup`; on
success `add_or_get` the joined path, `lookup` the inode, stamp `ino` into
the attributes and reply `entry`. NOTE (faithful to `src/fusemt.rs`): the
generation written to the reply is the one returned by the user callback;
the generation component of `add_or_get`'s result is discarded (the source
uses the result as a bare inode number). -/
def lookupHandler (fs : UserFS) (t : InodeTable) (parent : Nat) (name : String) :
    Option (List Call × Reply × InodeTable) :=
  match t.get_path parent with
  | none => none
  | some none => some ([], .error EINVAL, t)
  | some (some parent_path) =>
    let path := parent_path ++ [name]
    match fs.lookup parent_path name with
    | .ok (ttl, attr, generation) =>
      match t.add_or_get path with
      | none => none
      | some (ino, _tableGen, t1) =>
        match t1.lookup ino with
        | none => none
        | some t2 =>
          some ([.userLookup parent_path name],
            .entry ttl { attr with ino := ino } generation, t2)
    | .error e => some ([.userLookup parent_path name], .error e, t)

/-- `FuseMT::forget`: `self.inodes.get_path(ino).unwrap()` then
`self.inodes.forget(ino, nlookup)`. The `unwrap` means a `forget` on an
inode whose slot is free panics (`none`) instead of being ignored. -/
def forgetHandler (t : InodeTable) (ino n : Nat) : Option (Nat × InodeTable) :=
  match t.get_path ino with
  | none => none
  | some none => none
  | some (some _) => t.forget ino n

/-! ## `readdir` (`src/fusemt.rs`) -/

/-- `Path::parent`: drop the last component; `None` for the root. -/
def fsParent (p : FsPath) : Option FsPath :=
  match p with
  | [] => none
  | _ :: _ => some p.dropLast

/-- The inode given to a directory entry being appended: `.` gets the
directory's own inode, `..` the parent inode, any other name the
`!(1 as Inode)` sentinel (`2 ^ 64 - 2`). -/
def readdirEntryIno (dirIno parentIno : Nat) (name : String) : Nat :=
  if name = "." then dirIno
  else if name = ".." then parentIno
  else 2 ^ 64 - 2

/-- Model of `ReplyDirectory::add`: append the entry if the buffer (of
capacity `cap` entries) has room, returning `true` when the entry did not
fit (buffer full, entry not added). -/
def replyBufAdd (cap : Nat) (buf : List DirItem) (it : DirItem) :
    List DirItem × Bool :=
  if buf.length < cap then (buf ++ [it], false) else (buf, true)

/-- The `for (index, entry) in entries.iter().skip(offset).enumerate()` loop
of `FuseMT::readdir`: append entries with next-offset `offset + index + 1`,
breaking when the buffer reports full. -/
def readdirLoop (dirIno parentIno cap offset : Nat) :
    List DirItem → Nat → List DirectoryEntry → List DirItem
  | buf, _, [] => buf
  | buf, i, e :: rest =>
    let it : DirItem :=
      { ino := readdirEntryIno dirIno parentIno e.name
        off := offset + i + 1
        kind := e.kind
        name := e.name }
    match replyBufAdd cap buf it with
    | (buf', full) =>
      if full then buf'
      else readdirLoop dirIno parentIno cap offset buf' (i + 1) rest

/-- Parent-inode computation of `FuseMT::readdir`: the root is its own
parent; otherwise look the parent path up (`none` marks the
`path.parent().unwrap()` panic; `some none` means the parent is not in the
table, which the handler answers with `EIO`). -/
def readdirParentIno (t : InodeTable) (path : FsPath) (ino : Nat) :
    Option (Option Nat) :=
  if ino = 1 then some (some ino)
  else
    match fsParent path with
    | none => none
    | some pp => some (t.get_inode pp)

/-- Tail of `FuseMT::readdir` once the full listing is at hand: resolve the
parent inode (replying `EIO` if it is not in the table), then fill the reply
buffer from `offset` and reply OK. -/
def readdirFill (t : InodeTable) (path : FsPath) (ino offset cap : Nat)
    (es : List DirectoryEntry) : Option Reply :=
  match readdirParentIno t path ino with
  | none => none
  | some none => some (.error EIOVal)
  | some (some parentIno) =>
    some (.dirOk (readdirLoop ino parentIno cap offset [] 0 (es.drop offset)))

/-- `FuseMT::readdir`: resolve the path, fetch the cache entry for the
synthetic handle (`DirectoryCache::get_mut` panics on an unknown key), use
the cached listing or call the user's `readdir(path, real_fh)` once and
store the result, then page the listing into the reply buffer. -/
def readdirHandler (fs : UserFS) (t : InodeTable) (dc : DirectoryCache)
    (ino fh offset cap : Nat) : Option (List Call × Reply × DirectoryCache) :=
  match t.get_path ino with
  | none => none
  | some none => some ([], .error EINVAL, dc)
  | some (some path) =>
    match assocGet dc.entries fh with
    | none => none
    | some dce =>
      match dce.entries with
      | some es =>
        match readdirFill t path ino offset cap es with
        | none => none
        | some r => some ([], r, dc)
      | none =>
        match fs.readdir path dce.fh with
        | .error e => some ([.userReaddir path dce.fh], .error e, dc)
        | .ok es =>
          let dc' : DirectoryCache :=
            { dc with entries := assocInsert dc.entries fh { dce with entries := some es } }
          match readdirFill t path ino offset cap es with
          | none => none
          | some r => some ([.userReaddir path dce.fh], r, dc')

/-! ## Specification-side description of the `setattr` splitter (claim C1)

These definitions follow the words of the claim, not the code: the list of
sub-operations whose fields are present, in the fixed order chmod → chown →
truncate → utimens → utimens_macos, run with a stop at the first error,
followed by `getattr` on full success. The theorem for C1 proves the
transcribed handler equal to this description. -/

/-- A `setattr` sub-operation with its arguments. -/
inductive SubOp where
  | chmodOp (mode : Nat)
  | chownOp (uid gid : Option Nat)
  | truncateOp (size : Nat)
  | utimensOp (atime mtime : Option Nat)
  | utimensMacosOp (crtime chgtime bkuptime flags : Option Nat)
deriving DecidableEq, Repr

/-- The `Call` a sub-operation makes. -/
def subOpCall (p : FsPath) (fh : Option Nat) : SubOp → Call
  | .chmodOp m => .chmod p fh m
  | .chownOp u g => .chown p fh u g
  | .truncateOp s => .truncate p fh s
  | .utimensOp x y => .utimens p fh x y
  | .utimensMacosOp c g b f => .utimensMacos p fh c g b f

/-- Run a sub-operation against the user filesystem. -/
def execSubOp (fs : UserFS) (p : FsPath) (fh : Option Nat) : SubOp → Except Nat Unit
  | .chmodOp m => fs.chmod p fh m
  | .chownOp u g => fs.chown p fh u g
  | .truncateOp s => fs.truncate p fh s
  | .utimensOp x y => fs.utimens p fh x y
  | .utimensMacosOp c g b f => fs.utimens_macos p fh c g b f

/-- `chmod` is present iff `mode` is present. -/
def modeOps (a : SetattrArgs) : List SubOp :=
  match a.mode with
  | some m => [.chmodOp m]
  | none => []

/-- `chown` is present iff `uid` or `gid` is present. -/
def ownerOps (a : SetattrArgs) : List SubOp :=
  if a.uid.isSome || a.gid.isSome then [.chownOp a.uid a.gid] else []

/-- `truncate` is present iff `size` is present. -/
def sizeOps (a : SetattrArgs) : List SubOp :=
  match a.size with
  | some s => [.truncateOp s]
  | none => []

/-- `utimens` is present iff `atime` or `mtime` is present. -/
def timesOps (a : SetattrArgs) : List SubOp :=
  if a.atime.isSome || a.mtime.isSome then [.utimensOp a.atime a.mtime] else []

/-- `utimens_macos` is present iff any of `crtime`, `chgtime`, `bkuptime`,
`flags` is present. -/
def macosOps (a : SetattrArgs) : List SubOp :=
  if a.crtime.isSome || a.chgtime.isSome || a.bkuptime.isSome || a.flags.isSome then
    [.utimensMacosOp a.crtime a.chgtime a.bkuptime a.flags]
  else []

/-- The sub-operations whose fields are present, in the claim's fixed order. -/
def presentOps (a : SetattrArgs) : List SubOp :=
  modeOps a ++ ownerOps a ++ sizeOps a ++ timesOps a ++ macosOps a

/-- Run a list of sub-operations in order, stopping at the first error
(replying with it); after all succeed, call `getattr(path, fh)` and reply
with its result. -/
def runThenGetattr (fs : UserFS) (p : FsPath) (fh : Option Nat) :
    List SubOp → List Call × Reply
  | [] =>
    match fs.getattr p fh with
    | .ok (ttl, attr) => ([.getattr p fh], .attr ttl attr)
    | .error e => ([.getattr p fh], .error e)
  | op :: rest =>
    match execSubOp fs p fh op with
    | .error e => ([subOpCall p fh op], .error e)
    | .ok _ =>
      match runThenGetattr fs p fh rest with
      | (cs, r) => (subOpCall p fh op :: cs, r)

/-- The claim's description of a dispatched `setattr` on a resolved path. -/
def setattrSpec (fs : UserFS) (p : FsPath) (a : SetattrArgs) : List Call × Reply :=
  runThenGetattr fs p a.fh (presentOps a)

/-! ## Specification-side description of `readdir` (claim C9) -/

/-- The claim's inode assignment for a directory entry name. -/
def claimEntryIno (dirIno parentIno : Nat) (name : String) : Nat :=
  if name = "." then dirIno
  else if name = ".." then parentIno
  else 2 ^ 64 - 2

/-- The claim's reply items: the entry at position `i` (counting from the
given offset) carries next-offset `offset + i + 1` and the claim's inode
assignment. -/
def claimItems (dirIno parentIno offset : Nat) :
    Nat → List DirectoryEntry → List DirItem
  | _, [] => []
  | i, e :: rest =>
    { ino := claimEntryIno dirIno parentIno e.name
      off := offset + i + 1
      kind := e.kind
      name := e.name } :: claimItems dirIno parentIno offset (i + 1) rest

/-- The claim's paging of a full listing: reply `EIO` when the parent's
inode is not in the table (the root is its own parent), else reply OK with
the items from `offset`, truncated to the buffer's capacity. -/
def claimPage (t : InodeTable) (path : FsPath) (ino offset cap : Nat)
    (es : List DirectoryEntry) : Option Reply :=
  match readdirParentIno t path ino with
  | none => none
  | some none => some (.error EIOVal)
  | some (some parentIno) =>
    some (.dirOk ((claimItems ino parentIno offset 0 (es.drop offset)).take cap))

/-- The claim's description of `readdir`: use the cached listing, or call the
user's `readdir` exactly once and store the full list; then page it per
`claimPage`. -/
def readdirSpec (fs : UserFS) (t : InodeTable) (dc : DirectoryCache)
    (ino fh offset cap : Nat) : Option (List Call × Reply × DirectoryCache) :=
  match t.get_path ino with
  | none => none
  | some none => some ([], .error EINVAL, dc)
  | some (some path) =>
    match assocGet dc.entries fh with
    | none => none
    | some dce =>
      match dce.entries with
      | some es => (claimPage t path ino offset cap es).map (fun r => ([], r, dc))
      | none =>
        match fs.readdir path dce.fh with
        | .error e => some ([.userReaddir path dce.fh], .error e, dc)
        | .ok es =>
          (claimPage t path ino offset cap es).map
            (fun r => ([.userReaddir path dce.fh], r,
              { dc with entries := assocInsert dc.entries fh { dce with entries := some es } }))

/-! ## Claim C1: the setattr splitter -/

theorem stageGetattr_eq (fs : UserFS) (p : FsPath) (a : SetattrArgs) :
    stageGetattr fs p a = runThenGetattr fs p a.fh [] := rfl

theorem stageUtimensMacos_eq (fs : UserFS) (p : FsPath) (a : SetattrArgs) :
    stageUtimensMacos fs p a = runThenGetattr fs p a.fh (macosOps a) := by
  unfold stageUtimensMacos macosOps
  by_cases h : (a.crtime.isSome || a.chgtime.isSome || a.bkuptime.isSome || a.flags.isSome) = true
  · simp only [h, if_pos]
    cases hfs : fs.utimens_macos p a.fh a.crtime a.chgtime a.bkuptime a.flags with
    | error e => simp [runThenGetattr, execSubOp, subOpCall, hfs]
    | ok u => simp [runThenGetattr, execSubOp, subOpCall, hfs, stageGetattr_eq]
  · simp only [h, if_neg, Bool.not_eq_true] at *
    simp [h, stageGetattr_eq]

theorem stageUtimens_eq (fs : UserFS) (p : FsPath) (a : SetattrArgs) :
    stageUtimens fs p a = runThenGetattr fs p a.fh (timesOps a ++ macosOps a) := by
  unfold stageUtimens timesOps
  by_cases h : (a.atime.isSome || a.mtime.isSome) = true
  · simp only [h, if_pos]
    cases hfs : fs.utimens p a.fh a.atime a.mtime with
    | error e => simp [runThenGetattr, execSubOp, subOpCall, hfs]
    | ok u => simp [runThenGetattr, execSubOp, subOpCall, hfs, stageUtimensMacos_eq]
  · simp only [h, if_neg, Bool.not_eq_true] at *
    simp [h, stageUtimensMacos_eq]

theorem stageTruncate_eq (fs : UserFS) (p : FsPath) (a : SetattrArgs) :
    stageTruncate fs p a =
      runThenGetattr fs p a.fh (sizeOps a ++ timesOps a ++ macosOps a) := by
  unfold stageTruncate sizeOps
  cases a.size with
  | none => simp [stageUtimens_eq]
  | some s =>
    cases hfs : fs.truncate p a.fh s with
    | error e => simp [runThenGetattr, execSubOp, subOpCall, hfs]
    | ok u => simp [runThenGetattr, execSubOp, subOpCall, hfs, stageUtimens_eq]

theorem stageChown_eq (fs : UserFS) (p : FsPath) (a : SetattrArgs) :
    stageChown fs p a =
      runThenGetattr fs p a.fh (ownerOps a ++ sizeOps a ++ timesOps a ++ macosOps a) := by
  unfold stageChown ownerOps
  by_cases h : (a.uid.isSome || a.gid.isSome) = true
  · simp only [h, if_pos]
    cases hfs : fs.chown p a.fh a.uid a.gid with
    | error e => simp [runThenGetattr, execSubOp, subOpCall, hfs]
    | ok u => simp [runThenGetattr, execSubOp, subOpCall, hfs, stageTruncate_eq]
  · simp only [h, if_neg, Bool.not_eq_true] at *
    simp [h, stageTruncate_eq]

theorem stageChmod_eq (fs : UserFS) (p : FsPath) (a : SetattrArgs) :
    stageChmod fs p a = runThenGetattr fs p a.fh (presentOps a) := by
  unfold stageChmod presentOps modeOps
  cases a.mode with
  | none => simp [stageChown_eq, List.append_assoc]
  | some m =>
    cases hfs : fs.chmod p a.fh m with
    | error e => simp [runThenGetattr, execSubOp, subOpCall, hfs]
    | ok u => simp [runThenGetattr, execSubOp, subOpCall, hfs, stageChown_eq, List.append_assoc]

/-- C1. On a resolved path, the `setattr` dispatcher invokes exactly the
sub-operations whose fields are present, in the fixed order chmod (if `mode`
present) → chown (if `uid` or `gid` present) → truncate (if `size` present)
→ utimens (if `atime` or `mtime` present) → utimens_macos (if any of
`crtime`, `chgtime`, `bkuptime`, `flags` present); the first erroring
sub-operation's error is replied and nothing further (no `getattr`) is
invoked; after all present sub-operations succeed — including the
zero-sub-operation case where every field is absent — it calls
`getattr(path, fh)` and replies with its result. -/
theorem c1_setattr_splitter (fs : UserFS) (t : InodeTable) (ino : Nat)
    (a : SetattrArgs) (p : FsPath) (h : t.get_path ino = some (some p)) :
    setattrHandler fs t ino a = some (setattrSpec fs p a) := by
  unfold setattrHandler setattrSpec
  rw [h]
  exact congrArg some (stageChmod_eq fs p a)

/-! ## Lemmas on the association-list map -/

theorem assocGet_mem {α β : Type} [DecidableEq α] {l : List (α × β)} {k : α} {v : β}
    (h : assocGet l k = some v) : (k, v) ∈ l := by
  induction l with
  | nil => simp [assocGet] at h
  | cons pr rest ih =>
    by_cases hk : pr.1 = k
    · simp only [assocGet, hk, if_pos] at h
      cases h
      have hpr : (k, pr.2) = pr := by
        cases pr
        simp_all
      rw [hpr]
      exact List.mem_cons_self _ _
    · simp only [assocGet, hk, if_neg, not_false_iff] at h
      exact List.mem_cons_of_mem _ (ih h)

theorem mem_assocRemove {α β : Type} [DecidableEq α] {l : List (α × β)} {k : α}
    {pr : α × β} (h : pr ∈ assocRemove l k) : pr ∈ l ∧ pr.1 ≠ k := by
  induction l with
  | nil => simp [assocRemove] at h
  | cons q rest ih =>
    by_cases hk : q.1 = k
    · simp only [assocRemove, hk, if_pos] at h
      exact ⟨List.mem_cons_of_mem _ (ih h).1, (ih h).2⟩
    · simp only [assocRemove, hk, if_neg, not_false_iff, List.mem_cons] at h
      rcases h with h | h
      · subst h
        exact ⟨List.mem_cons_self _ _, hk⟩
      · exact ⟨List.mem_cons_of_mem _ (ih h).1, (ih h).2⟩

theorem assocGet_remove_self {α β : Type} [DecidableEq α] (l : List (α × β)) (k : α) :
    assocGet (assocRemove l k) k = none := by
  induction l with
  | nil => rfl
  | cons q rest ih =>
    by_cases hk : q.1 = k
    · simpa [assocRemove, hk]
    · simp [assocRemove, assocGet, hk, ih]

theorem assocGet_remove_ne {α β : Type} [DecidableEq α] (l : List (α × β)) {k k' : α}
    (h : k' ≠ k) : assocGet (assocRemove l k) k' = assocGet l k' := by
  induction l with
  | nil => rfl
  | cons q rest ih =>
    by_cases hk : q.1 = k
    · simp [assocRemove, assocGet, hk, Ne.symm h, ih]
    · by_cases hk' : q.1 = k'
      · simp [assocRemove, assocGet, hk, hk', h]
      · simp [assocRemove, assocGet, hk, hk', ih]

theorem assocGet_insert_self {α β : Type} [DecidableEq α] (l : List (α × β)) (k : α) (v : β) :
    assocGet (assocInsert l k v) k = some v := by
  simp [assocInsert, assocGet]

theorem assocGet_insert_ne {α β : Type} [DecidableEq α] (l : List (α × β)) {k k' : α} (v : β)
    (h : k' ≠ k) : assocGet (assocInsert l k v) k' = assocGet l k' := by
  have : ¬ k = k' := fun hh => h hh.symm
  simp [assocInsert, assocGet, this, assocGet_remove_ne l h]

theorem mem_assocInsert {α β : Type} [DecidableEq α] {l : List (α × β)} {k : α} {v : β}
    {pr : α × β} (h : pr ∈ assocInsert l k v) : pr = (k, v) ∨ (pr ∈ l ∧ pr.1 ≠ k) := by
  simp only [assocInsert, List.mem_cons] at h
  rcases h with h | h
  · exact Or.inl h
  · exact Or.inr (mem_assocRemove h)

theorem keys_nodup_remove {α β : Type} [DecidableEq α] {l : List (α × β)} (k : α)
    (h : (l.map Prod.fst).Nodup) : ((assocRemove l k).map Prod.fst).Nodup := by
  induction l with
  | nil => simp [assocRemove]
  | cons q rest ih =>
    simp only [List.map_cons, List.nodup_cons] at h
    by_cases hk : q.1 = k
    · simp only [assocRemove, hk, if_pos]
      exact ih h.2
    · simp only [assocRemove, hk, if_neg, not_false_iff, List.map_cons, List.nodup_cons]
      refine ⟨fun hc => h.1 ?_, ih h.2⟩
      rcases List.mem_map.1 hc with ⟨pr, hpr, hfst⟩
      exact List.mem_map.2 ⟨pr, (mem_assocRemove hpr).1, hfst⟩

theorem key_not_mem_remove {α β : Type} [DecidableEq α] (l : List (α × β)) (k : α) :
    k ∉ (assocRemove l k).map Prod.fst := by
  intro hc
  rcases List.mem_map.1 hc with ⟨pr, hpr, hfst⟩
  exact (mem_assocRemove hpr).2 hfst

theorem keys_nodup_insert {α β : Type} [DecidableEq α] {l : List (α × β)} (k : α) (v : β)
    (h : (l.map Prod.fst).Nodup) : ((assocInsert l k v).map Prod.fst).Nodup := by
  simp only [assocInsert, List.map_cons, List.nodup_cons]
  exact ⟨key_not_mem_remove l k, keys_nodup_remove k h⟩

/-! ## Slot-vector lemmas -/

theorem entryPath_set_self (tbl : List InodeTableEntry) {i : Nat} (e : InodeTableEntry)
    (h : i < tbl.length) : entryPath (tbl.set i e) i = e.path := by
  simp [entryPath, List.getElem?_set_eq_of_lt e h]

theorem entryPath_set_ne (tbl : List InodeTableEntry) {i j : Nat} (e : InodeTableEntry)
    (h : i ≠ j) : entryPath (tbl.set i e) j = entryPath tbl j := by
  simp [entryPath, List.getElem?_set_ne h]

theorem entryGen_set_self (tbl : List InodeTableEntry) {i : Nat} (e : InodeTableEntry)
    (h : i < tbl.length) : entryGen (tbl.set i e) i = some e.generation := by
  simp [entryGen, List.getElem?_set_eq_of_lt e h]

theorem entryGen_set_ne (tbl : List InodeTableEntry) {i j : Nat} (e : InodeTableEntry)
    (h : i ≠ j) : entryGen (tbl.set i e) j = entryGen tbl j := by
  simp [entryGen, List.getElem?_set_ne h]

theorem entryLookups_set_self (tbl : List InodeTableEntry) {i : Nat} (e : InodeTableEntry)
    (h : i < tbl.length) : entryLookups (tbl.set i e) i = some e.lookups := by
  simp [entryLookups, List.getElem?_set_eq_of_lt e h]

theorem entryLookups_set_ne (tbl : List InodeTableEntry) {i j : Nat} (e : InodeTableEntry)
    (h : i ≠ j) : entryLookups (tbl.set i e) j = entryLookups tbl j := by
  simp [entryLookups, List.getElem?_set_ne h]

theorem entryPath_append_left (tbl : List InodeTableEntry) (l : List InodeTableEntry)
    {i : Nat} (h : i < tbl.length) : entryPath (tbl ++ l) i = entryPath tbl i := by
  simp [entryPath, List.getElem?_append_left h]

theorem entryPath_concat_self (tbl : List InodeTableEntry) (e : InodeTableEntry) :
    entryPath (tbl ++ [e]) tbl.length = e.path := by
  simp [entryPath, List.getElem?_concat_length]

theorem entryGen_append_left (tbl : List InodeTableEntry) (l : List InodeTableEntry)
    {i : Nat} (h : i < tbl.length) : entryGen (tbl ++ l) i = entryGen tbl i := by
  simp [entryGen, List.getElem?_append_left h]

theorem get?_some_lt {α : Type} {l : List α} {i : Nat} {a : α}
    (h : l.get? i = some a) : i < l.length := by
  by_contra hc
  rw [List.get?_eq_none.2 (Nat.le_of_not_lt hc)] at h
  cases h

theorem entryPath_get (tbl : List InodeTableEntry) {i : Nat} {e : InodeTableEntry}
    (h : tbl.get? i = some e) : entryPath tbl i = e.path := by
  unfold entryPath
  rw [h]

theorem entryGen_get (tbl : List InodeTableEntry) {i : Nat} {e : InodeTableEntry}
    (h : tbl.get? i = some e) : entryGen tbl i = some e.generation := by
  unfold entryGen
  rw [h]

theorem entryLookups_get (tbl : List InodeTableEntry) {i : Nat} {e : InodeTableEntry}
    (h : tbl.get? i = some e) : entryLookups tbl i = some e.lookups := by
  unfold entryLookups
  rw [h]

/-- Setting a slot without changing its path preserves `entryPath` everywhere. -/
theorem entryPath_set_same (tbl : List InodeTableEntry) (i : Nat) (e e' : InodeTableEntry)
    (hget : tbl.get? i = some e) (hpath : e'.path = e.path) (j : Nat) :
    entryPath (tbl.set i e') j = entryPath tbl j := by
  rcases eq_or_ne i j with rfl | hne
  · rw [entryPath_set_self tbl e' (get?_some_lt hget), entryPath_get tbl hget, hpath]
  · exact entryPath_set_ne tbl e' hne

/-- Setting a slot without changing its generation preserves `entryGen` everywhere. -/
theorem entryGen_set_same (tbl : List InodeTableEntry) (i : Nat) (e e' : InodeTableEntry)
    (hget : tbl.get? i = some e) (hgen : e'.generation = e.generation) (j : Nat) :
    entryGen (tbl.set i e') j = entryGen tbl j := by
  rcases eq_or_ne i j with rfl | hne
  · rw [entryGen_set_self tbl e' (get?_some_lt hget), entryGen_get tbl hget, hgen]
  · exact entryGen_set_ne tbl e' hne

/-! ## The inode-table invariant (claims C3–C7) -/

/-- The inductive invariant of the inode table: every `by_path` binding
points inside the slot vector at a live slot bearing exactly that path and
keys are unduplicated (the `by_path` → `table` direction of the bijection);
free-list members are in-bounds, free (`path = None`) and unduplicated; and
slot 0 (inode 1) is always live, never on the free list, with generation 0. -/
structure TableInv (t : InodeTable) : Prop where
  bp_ok : ∀ pr ∈ t.by_path, pr.2 < t.table.length ∧ pathAt t pr.2 = some pr.1
  bp_nodup : (t.by_path.map Prod.fst).Nodup
  free_ok : ∀ idx ∈ t.free_list, idx < t.table.length ∧ pathAt t idx = none
  free_nodup : t.free_list.Nodup
  root_lt : 0 < t.table.length
  root_some : (pathAt t 0).isSome
  root_not_free : 0 ∉ t.free_list
  root_gen : genAt t 0 = some 0

theorem TableInv.new_inv : TableInv InodeTable.new := by
  constructor
  · intro pr hpr
    simp only [InodeTable.new, List.mem_singleton] at hpr
    subst hpr
    exact ⟨by simp [InodeTable.new], by simp [pathAt, entryPath, InodeTable.new]⟩
  · simp [InodeTable.new]
  · intro idx h
    simp [InodeTable.new] at h
  · simp [InodeTable.new]
  · simp [InodeTable.new]
  · simp [pathAt, entryPath, InodeTable.new]
  · simp [InodeTable.new]
  · simp [genAt, entryGen, InodeTable.new]

theorem TableInv.unlink_inv {t : InodeTable} (ht : TableInv t) (p : FsPath) :
    TableInv (t.unlink p) := by
  constructor
  · intro pr hpr
    exact ht.bp_ok pr (mem_assocRemove hpr).1
  · exact keys_nodup_remove p ht.bp_nodup
  · exact ht.free_ok
  · exact ht.free_nodup
  · exact ht.root_lt
  · exact ht.root_some
  · exact ht.root_not_free
  · exact ht.root_gen

theorem TableInv.lookup_inv {t t' : InodeTable} (ht : TableInv t) {i : Nat}
    (h : t.lookup i = some t') : TableInv t' := by
  unfold InodeTable.lookup at h
  by_cases h1 : i = 1
  · simp only [h1, if_pos] at h
    cases h
    exact ht
  · simp only [h1, if_neg, not_false_iff] at h
    by_cases h0 : i = 0
    · simp [h0] at h
    · simp only [h0, if_neg, not_false_iff] at h
      cases hget : t.table.get? (i - 1) with
      | none => rw [hget] at h; cases h
      | some e =>
        rw [hget] at h
        cases h
        have hpres := entryPath_set_same t.table (i - 1) e
          { e with lookups := e.lookups + 1 } hget rfl
        have hgpres := entryGen_set_same t.table (i - 1) e
          { e with lookups := e.lookups + 1 } hget rfl
        constructor
        · intro pr hpr
          refine ⟨by simpa using (ht.bp_ok pr hpr).1, ?_⟩
          show entryPath _ pr.2 = some pr.1
          rw [hpres pr.2]
          exact (ht.bp_ok pr hpr).2
        · exact ht.bp_nodup
        · intro idx hidx
          refine ⟨by simpa using (ht.free_ok idx hidx).1, ?_⟩
          show entryPath _ idx = none
          rw [hpres idx]
          exact (ht.free_ok idx hidx).2
        · exact ht.free_nodup
        · simpa using ht.root_lt
        · show (entryPath _ 0).isSome
          rw [hpres 0]
          exact ht.root_some
        · exact ht.root_not_free
        · show entryGen _ 0 = some 0
          rw [hgpres 0]
          exact ht.root_gen

theorem TableInv.rename_inv {t t' : InodeTable} (ht : TableInv t) {a b : FsPath}
    (h : t.rename a b = some t') : TableInv t' := by
  unfold InodeTable.rename at h
  split at h
  next => cases h
  next idx hga =>
    split at h
    next => cases h
    next e hget =>
      cases h
      have hmem : (a, idx) ∈ t.by_path := assocGet_mem hga
      have hidx_lt : idx < t.table.length := (ht.bp_ok _ hmem).1
      have hpa : pathAt t idx = some a := (ht.bp_ok _ hmem).2
      constructor
      · intro pr hpr
        rcases mem_assocInsert hpr with rfl | ⟨hpr', hne⟩
        · refine ⟨by simpa using hidx_lt, ?_⟩
          show entryPath (t.table.set idx { e with path := some b }) idx = some b
          rw [entryPath_set_self t.table _ hidx_lt]
        · have hold := mem_assocRemove hpr'
          refine ⟨by simpa using (ht.bp_ok pr hold.1).1, ?_⟩
          show entryPath (t.table.set idx { e with path := some b }) pr.2 = some pr.1
          have hne_idx : idx ≠ pr.2 := by
            intro hc
            have h1 := (ht.bp_ok pr hold.1).2
            rw [← hc, hpa] at h1
            exact hold.2 (Option.some.inj h1).symm
          rw [entryPath_set_ne t.table _ hne_idx]
          exact (ht.bp_ok pr hold.1).2
      · exact keys_nodup_insert b idx (keys_nodup_remove a ht.bp_nodup)
      · intro fidx hfidx
        refine ⟨by simpa using (ht.free_ok fidx hfidx).1, ?_⟩
        show entryPath (t.table.set idx { e with path := some b }) fidx = none
        have hne : idx ≠ fidx := by
          intro hc
          have h2 := (ht.free_ok fidx hfidx).2
          rw [← hc, hpa] at h2
          cases h2
        rw [entryPath_set_ne t.table _ hne]
        exact (ht.free_ok fidx hfidx).2
      · exact ht.free_nodup
      · simpa using ht.root_lt
      · rcases eq_or_ne idx 0 with rfl | hne0
        · show (entryPath (t.table.set 0 { e with path := some b }) 0).isSome
          rw [entryPath_set_self t.table _ hidx_lt]
          rfl
        · show (entryPath (t.table.set idx { e with path := some b }) 0).isSome
          rw [entryPath_set_ne t.table _ hne0]
          exact ht.root_some
      · exact ht.root_not_free
      · show entryGen (t.table.set idx { e with path := some b }) 0 = some 0
        rw [entryGen_set_same t.table idx e { e with path := some b } hget rfl 0]
        exact ht.root_gen

theorem TableInv.forget_inv {t t' : InodeTable} (ht : TableInv t) {i n c : Nat}
    (h : t.forget i n = some (c, t')) : TableInv t' := by
  unfold InodeTable.forget at h
  split at h
  next h1 =>
    simp only [Option.some.injEq, Prod.mk.injEq] at h
    exact h.2 ▸ ht
  next h1 =>
    split at h
    next h0 => cases h
    next h0 =>
      dsimp only [] at h
      split at h
      next => cases h
      next e hget =>
        split at h
        next hn =>
          split at h
          next hz =>
            split at h
            next hp => cases h
            next p hp =>
              simp only [Option.some.injEq, Prod.mk.injEq] at h
              obtain ⟨hc, ht'⟩ := h
              subst ht'
              have hidx_lt : i - 1 < t.table.length := get?_some_lt hget
              have hidx_pos : i - 1 ≠ 0 := by omega
              have hpa : pathAt t (i - 1) = some p := by
                show entryPath t.table (i - 1) = some p
                rw [entryPath_get t.table hget, hp]
              have hnotfree : i - 1 ∉ t.free_list := by
                intro hcon
                have := (ht.free_ok _ hcon).2
                rw [hpa] at this
                cases this
              constructor
              · intro pr hpr
                have hold := mem_assocRemove hpr
                refine ⟨by simpa using (ht.bp_ok pr hold.1).1, ?_⟩
                show entryPath (t.table.set (i - 1) { e with lookups := 0, path := none })
                  pr.2 = some pr.1
                have hne : i - 1 ≠ pr.2 := by
                  intro hcon
                  have h2 := (ht.bp_ok pr hold.1).2
                  rw [← hcon, hpa] at h2
                  exact hold.2 (Option.some.inj h2).symm
                rw [entryPath_set_ne t.table _ hne]
                exact (ht.bp_ok pr hold.1).2
              · exact keys_nodup_remove p ht.bp_nodup
              · intro fidx hfidx
                rcases List.mem_append.1 hfidx with hfold | hfnew
                · refine ⟨by simpa using (ht.free_ok fidx hfold).1, ?_⟩
                  show entryPath (t.table.set (i - 1) { e with lookups := 0, path := none })
                    fidx = none
                  have hne : i - 1 ≠ fidx := fun hcon => hnotfree (hcon ▸ hfold)
                  rw [entryPath_set_ne t.table _ hne]
                  exact (ht.free_ok fidx hfold).2
                · have hfe : fidx = i - 1 := by simpa using hfnew
                  subst hfe
                  refine ⟨by simpa using hidx_lt, ?_⟩
                  show entryPath (t.table.set (i - 1) { e with lookups := 0, path := none })
                    (i - 1) = none
                  rw [entryPath_set_self t.table _ hidx_lt]
              · refine List.Nodup.append ht.free_nodup (List.nodup_singleton _) ?_
                intro x hx hx'
                have : x = i - 1 := by simpa using hx'
                exact hnotfree (this ▸ hx)
              · simpa using ht.root_lt
              · show (entryPath (t.table.set (i - 1) { e with lookups := 0, path := none })
                  0).isSome
                rw [entryPath_set_ne t.table _ hidx_pos]
                exact ht.root_some
              · intro hcon
                rcases List.mem_append.1 hcon with hfold | hfnew
                · exact ht.root_not_free hfold
                · have hx : (0 : Nat) = i - 1 := by simpa using hfnew
                  exact hidx_pos hx.symm
              · show entryGen (t.table.set (i - 1) { e with lookups := 0, path := none })
                  0 = some 0
                rw [entryGen_set_same t.table (i - 1) e
                  { e with lookups := 0, path := none } hget rfl 0]
                exact ht.root_gen
          next hz =>
            simp only [Option.some.injEq, Prod.mk.injEq] at h
            obtain ⟨hc, ht'⟩ := h
            subst ht'
            have hpres := entryPath_set_same t.table (i - 1) e
              { e with lookups := e.lookups - n } hget rfl
            have hgpres := entryGen_set_same t.table (i - 1) e
              { e with lookups := e.lookups - n } hget rfl
            constructor
            · intro pr hpr
              refine ⟨by simpa using (ht.bp_ok pr hpr).1, ?_⟩
              show entryPath (t.table.set (i - 1) { e with lookups := e.lookups - n })
                pr.2 = some pr.1
              rw [hpres pr.2]
              exact (ht.bp_ok pr hpr).2
            · exact ht.bp_nodup
            · intro idx hidx
              refine ⟨by simpa using (ht.free_ok idx hidx).1, ?_⟩
              show entryPath (t.table.set (i - 1) { e with lookups := e.lookups - n })
                idx = none
              rw [hpres idx]
              exact (ht.free_ok idx hidx).2
            · exact ht.free_nodup
            · simpa using ht.root_lt
            · show (entryPath (t.table.set (i - 1) { e with lookups := e.lookups - n })
                0).isSome
              rw [hpres 0]
              exact ht.root_some
            · exact ht.root_not_free
            · show entryGen (t.table.set (i - 1) { e with lookups := e.lookups - n })
                0 = some 0
              rw [hgpres 0]
              exact ht.root_gen
        next hn => cases h

theorem set_concat_self {α : Type} (l : List α) (a b : α) :
    (l ++ [a]).set l.length b = l ++ [b] := by
  induction l with
  | nil => rfl
  | cons x xs ih =>
    show (x :: (xs ++ [a])).set (xs.length + 1) b = x :: (xs ++ [b])
    rw [List.set_cons_succ, ih]

/-- Core preservation lemma for both `add` and `add_or_get`: allocating a
slot via `get_inode_entry`, writing a final entry whose path is the inserted
path, and binding the path in `by_path` preserves the invariant. -/
theorem TableInv.alloc_inv {t : InodeTable} (ht : TableInv t) {p : FsPath}
    {inode : Nat} {fl' : List Nat} {tbl' : List InodeTableEntry} {e : InodeTableEntry}
    (halloc : InodeTable.get_inode_entry t.free_list t.table = some (inode, fl', tbl', e))
    (f : InodeTableEntry) (hf : f.path = some p) :
    TableInv { table := tbl'.set (inode - 1) f
               free_list := fl'
               by_path := assocInsert t.by_path p (inode - 1) } := by
  unfold InodeTable.get_inode_entry at halloc
  cases hfl : t.free_list with
  | cons idx rest =>
    rw [hfl] at halloc
    dsimp only [] at halloc
    cases hget : t.table.get? idx with
    | none => rw [hget] at halloc; cases halloc
    | some e0 =>
      rw [hget] at halloc
      simp only [Option.some.injEq, Prod.mk.injEq] at halloc
      obtain ⟨hino, hfl', htbl', he⟩ := halloc
      subst hino
      subst hfl'
      subst htbl'
      have hidx1 : idx + 1 - 1 = idx := by omega
      have hidx_lt : idx < t.table.length := get?_some_lt hget
      have hidx_free : idx ∈ t.free_list := by rw [hfl]; exact List.mem_cons_self _ _
      have hidx_none : pathAt t idx = none := (ht.free_ok idx hidx_free).2
      have hidx_ne0 : idx ≠ 0 := by
        intro hcon
        exact ht.root_not_free (hcon ▸ hidx_free)
      have hnodup := ht.free_nodup
      rw [hfl] at hnodup
      have hidx_notin_rest : idx ∉ rest := (List.nodup_cons.1 hnodup).1
      rw [hidx1]
      constructor
      · intro pr hpr
        rcases mem_assocInsert hpr with rfl | ⟨hpr', hne⟩
        · constructor
          · simpa using hidx_lt
          · show entryPath ((t.table.set idx { e0 with generation := e0.generation + 1 }).set
              idx f) idx = some p
            rw [List.set_set, entryPath_set_self t.table f hidx_lt, hf]
        · have hb := ht.bp_ok pr hpr'
          constructor
          · simpa using hb.1
          · show entryPath ((t.table.set idx { e0 with generation := e0.generation + 1 }).set
              idx f) pr.2 = some pr.1
            have hne_idx : idx ≠ pr.2 := by
              intro hcon
              have h2 := hb.2
              rw [← hcon, hidx_none] at h2
              cases h2
            rw [List.set_set, entryPath_set_ne t.table f hne_idx]
            exact hb.2
      · exact keys_nodup_insert p idx ht.bp_nodup
      · intro fidx hfidx
        have hfmem : fidx ∈ t.free_list := by
          rw [hfl]
          exact List.mem_cons_of_mem _ hfidx
        have hff := ht.free_ok fidx hfmem
        constructor
        · simpa using hff.1
        · show entryPath ((t.table.set idx { e0 with generation := e0.generation + 1 }).set
            idx f) fidx = none
          have hne_idx : idx ≠ fidx := fun hcon => hidx_notin_rest (hcon ▸ hfidx)
          rw [List.set_set, entryPath_set_ne t.table f hne_idx]
          exact hff.2
      · exact (List.nodup_cons.1 hnodup).2
      · simpa using ht.root_lt
      · show (entryPath ((t.table.set idx { e0 with generation := e0.generation + 1 }).set
          idx f) 0).isSome
        rw [List.set_set, entryPath_set_ne t.table f hidx_ne0]
        exact ht.root_some
      · intro hcon
        exact hidx_notin_rest.elim (False.elim (hidx_notin_rest (False.elim
          (ht.root_not_free (hfl ▸ List.mem_cons_of_mem _ hcon)))))
      · show entryGen ((t.table.set idx { e0 with generation := e0.generation + 1 }).set
          idx f) 0 = some 0
        rw [List.set_set, entryGen_set_ne t.table f hidx_ne0]
        exact ht.root_gen
  | nil =>
    rw [hfl] at halloc
    dsimp only [] at halloc
    simp only [Option.some.injEq, Prod.mk.injEq] at halloc
    obtain ⟨hino, hfl', htbl', he⟩ := halloc
    subst hino
    subst hfl'
    subst htbl'
    have hlen1 : t.table.length + 1 - 1 = t.table.length := by omega
    rw [hlen1]
    constructor
    · intro pr hpr
      rcases mem_assocInsert hpr with rfl | ⟨hpr', hne⟩
      · constructor
        · simp
        · show entryPath ((t.table ++ [({ path := none, lookups := 0, generation := 0 } : InodeTableEntry)]).set t.table.length f) t.table.length = some p
          rw [set_concat_self, entryPath_concat_self, hf]
      · have hb := ht.bp_ok pr hpr'
        constructor
        · simp only [List.length_set, List.length_append, List.length_singleton]
          omega
        · show entryPath ((t.table ++ [({ path := none, lookups := 0, generation := 0 } : InodeTableEntry)]).set t.table.length f) pr.2 = some pr.1
          rw [set_concat_self, entryPath_append_left t.table [f] hb.1]
          exact hb.2
    · exact keys_nodup_insert p t.table.length ht.bp_nodup
    · intro fidx hfidx
      cases hfidx
    · exact List.nodup_nil
    · simp
    · show (entryPath ((t.table ++ [({ path := none, lookups := 0, generation := 0 } : InodeTableEntry)]).set t.table.length f) 0).isSome
      rw [set_concat_self, entryPath_append_left t.table [f] ht.root_lt]
      exact ht.root_some
    · intro hcon
      cases hcon
    · show entryGen ((t.table ++ [({ path := none, lookups := 0, generation := 0 } : InodeTableEntry)]).set t.table.length f) 0 = some 0
      rw [set_concat_self, entryGen_append_left t.table [f] ht.root_lt]
      exact ht.root_gen

theorem TableInv.add_inv {t : InodeTable} (ht : TableInv t) {p : FsPath}
    {ino g : Nat} {t' : InodeTable} (h : t.add p = some (ino, g, t')) : TableInv t' := by
  unfold InodeTable.add at h
  split at h
  next => cases h
  next inode fl' tbl' e halloc =>
    split at h
    next => cases h
    next hp =>
      simp only [Option.some.injEq, Prod.mk.injEq] at h
      obtain ⟨-, -, ht'⟩ := h
      subst ht'
      exact ht.alloc_inv halloc { e with path := some p, lookups := 1 } rfl

theorem TableInv.add_or_get_inv {t : InodeTable} (ht : TableInv t) {p : FsPath}
    {ino g : Nat} {t' : InodeTable} (h : t.add_or_get p = some (ino, g, t')) :
    TableInv t' := by
  unfold InodeTable.add_or_get at h
  split at h
  next idx hidx =>
    split at h
    next e hget =>
      simp only [Option.some.injEq, Prod.mk.injEq] at h
      obtain ⟨-, -, ht'⟩ := h
      subst ht'
      exact ht
    next => cases h
  next hp =>
    split at h
    next => cases h
    next inode fl' tbl' e halloc =>
      simp only [Option.some.injEq, Prod.mk.injEq] at h
      obtain ⟨-, -, ht'⟩ := h
      subst ht'
      exact ht.alloc_inv halloc { e with path := some p } rfl

/-- Every single operation preserves the invariant. -/
theorem TableInv.applyOp_inv {t t' : InodeTable} (ht : TableInv t) {op : TableOp}
    (h : applyOp t op = some t') : TableInv t' := by
  cases op with
  | add p =>
    simp only [applyOp, Option.map_eq_some'] at h
    obtain ⟨⟨ino, g, t''⟩, hr, ht''⟩ := h
    cases ht''
    exact ht.add_inv hr
  | add_or_get p =>
    simp only [applyOp, Option.map_eq_some'] at h
    obtain ⟨⟨ino, g, t''⟩, hr, ht''⟩ := h
    cases ht''
    exact ht.add_or_get_inv hr
  | lookup i =>
    exact ht.lookup_inv h
  | forget i n =>
    simp only [applyOp, Option.map_eq_some'] at h
    obtain ⟨⟨c, t''⟩, hr, ht''⟩ := h
    cases ht''
    exact ht.forget_inv hr
  | rename a b =>
    exact ht.rename_inv h
  | unlink p =>
    simp only [applyOp, Option.some.injEq] at h
    cases h
    exact ht.unlink_inv p

/-- Every state reachable from `new` by a panic-free operation sequence
satisfies the invariant. -/
theorem TableInv.reachable {ops : List TableOp} {t : InodeTable}
    (h : applyOps InodeTable.new ops = some t) : TableInv t := by
  suffices hgen : ∀ (ops : List TableOp) (s t : InodeTable), TableInv s →
      applyOps s ops = some t → TableInv t by
    exact hgen ops InodeTable.new t TableInv.new_inv h
  intro ops
  induction ops with
  | nil =>
    intro s t hs h
    simp only [applyOps, Option.some.injEq] at h
    cases h
    exact hs
  | cons op rest ih =>
    intro s t hs h
    simp only [applyOps] at h
    cases hstep : applyOp s op with
    | none => rw [hstep] at h; cases h
    | some s' =>
      rw [hstep] at h
      exact ih s' t (hs.applyOp_inv hstep) h

/-! ## Concrete tables used by witnesses and counterexamples -/

/-- The table after `add(/a)` on a fresh table: `/a` at inode 2. -/
def tAddA : InodeTable :=
  { table := [{ path := some [], lookups := 0, generation := 0 },
              { path := some ["a"], lookups := 1, generation := 0 }]
    free_list := []
    by_path := [(["a"], 1), ([], 0)] }

/-- The table after `add(/a); forget(2, 1)`: slot 1 is free. -/
def tFreed : InodeTable :=
  { table := [{ path := some [], lookups := 0, generation := 0 },
              { path := none, lookups := 0, generation := 0 }]
    free_list := [1]
    by_path := [([], 0)] }

/-! ## Claim C3: the bijection invariant -/

/-- The table after `add(/a); add(/b); rename(/a, /b)`: the displaced slot 2
is still live with path `/b`, but `by_path[/b]` is 1. -/
def c3Displaced : InodeTable :=
  { table := [{ path := some [], lookups := 0, generation := 0 },
              { path := some ["b"], lookups := 1, generation := 0 },
              { path := some ["b"], lookups := 1, generation := 0 }]
    free_list := []
    by_path := [(["b"], 1), ([], 0)] }

/-- C3 counterexample. After the panic-free sequence `add(/a); add(/b);
rename(/a, /b)` — which contains no `unlink` at all, so no entry is
tombstoned by unlink — the live entry at index 2 has path `Some(/b)` yet
`by_path[/b] = 1 ≠ 2`: the table→`by_path` direction of the claimed
bijection fails for an entry displaced by `rename`. -/
theorem c3_bijection_counterexample :
    applyOps InodeTable.new
      [.add ["a"], .add ["b"], .rename ["a"] ["b"]] = some c3Displaced ∧
    pathAt c3Displaced 2 = some ["b"] ∧
    lookupsAt c3Displaced 2 = some 1 ∧
    assocGet c3Displaced.by_path ["b"] = some 1 := by decide

/-- C3 (amended). For every sequence of inode-table operations applied
panic-free to a table created by `new()`, the `by_path` → table direction of
the bijection holds afterwards: every binding `by_path[p] = idx` points
inside the table at a live entry with `table[idx].path = Some(p)`, and
`by_path` is injective (no two paths share an index). The reverse direction
holds only for entries that still own their binding: a live entry's path can
be absent from `by_path` (unlink tombstone) or bound to a different index
(an entry displaced by `rename` onto its path), as the counterexample shows. -/
theorem c3_bijection (ops : List TableOp) (t : InodeTable)
    (h : applyOps InodeTable.new ops = some t) :
    (∀ pr ∈ t.by_path, pr.2 < t.table.length ∧ pathAt t pr.2 = some pr.1) ∧
    (∀ (p q : FsPath) (idx : Nat),
      assocGet t.by_path p = some idx → assocGet t.by_path q = some idx → p = q) := by
  have ht := TableInv.reachable h
  refine ⟨ht.bp_ok, ?_⟩
  intro p q idx hp hq
  have h1 := (ht.bp_ok _ (assocGet_mem hp)).2
  have h2 := (ht.bp_ok _ (assocGet_mem hq)).2
  rw [h1] at h2
  exact Option.some.inj h2

theorem c3_bijection_witness :
    applyOps InodeTable.new [.add ["a"], .add ["b"], .rename ["a"] ["b"]]
      = some c3Displaced ∧
    ((∀ pr ∈ c3Displaced.by_path,
        pr.2 < c3Displaced.table.length ∧ pathAt c3Displaced pr.2 = some pr.1) ∧
      (∀ (p q : FsPath) (idx : Nat),
        assocGet c3Displaced.by_path p = some idx →
        assocGet c3Displaced.by_path q = some idx → p = q)) :=
  ⟨by decide,
    c3_bijection [.add ["a"], .add ["b"], .rename ["a"] ["b"]] c3Displaced (by decide)⟩

/-! ## Claim C4: rename preserves identity and counts -/

/-- Setting a slot without changing its lookup count preserves `entryLookups`
everywhere. -/
theorem entryLookups_set_same (tbl : List InodeTableEntry) (i : Nat)
    (e e' : InodeTableEntry) (hget : tbl.get? i = some e)
    (hcnt : e'.lookups = e.lookups) (j : Nat) :
    entryLookups (tbl.set i e') j = entryLookups tbl j := by
  rcases eq_or_ne i j with rfl | hne
  · rw [entryLookups_set_self tbl e' (get?_some_lt hget), entryLookups_get tbl hget, hcnt]
  · exact entryLookups_set_ne tbl e' hne

/-- C4 counterexample. Renaming a path to itself: after `rename(/a, /a)` on a
table mapping `/a` to inode 2, `get_inode(/a)` is `Some 2`, not `None` — the
claim's `get_inode(a) = None` fails when `b = a`. -/
theorem c4_rename_counterexample :
    tAddA.rename ["a"] ["a"] = some tAddA ∧
    tAddA.get_inode ["a"] = some 2 := by decide

/-- C4 (amended). For every table in which path `a` is mapped to index
`idx` (inode `idx + 1`) and every path `b ≠ a`: `rename(a, b)` succeeds,
preserves every entry's generation and lookup count (including those of any
inode previously mapped at `b`) and the free list, and afterwards
`get_inode(a) = None`, `get_inode(b) = idx + 1` and
`get_path(idx + 1) = Some(b)`. -/
theorem c4_rename_effect (t : InodeTable) (a b : FsPath) (idx : Nat)
    (hab : a ≠ b) (ha : assocGet t.by_path a = some idx)
    (hlt : idx < t.table.length) :
    ∃ t', t.rename a b = some t' ∧
      t'.get_inode a = none ∧
      t'.get_inode b = some (idx + 1) ∧
      t'.get_path (idx + 1) = some (some b) ∧
      (∀ j, genAt t' j = genAt t j) ∧
      (∀ j, lookupsAt t' j = lookupsAt t j) ∧
      t'.free_list = t.free_list := by
  cases hget : t.table.get? idx with
  | none =>
    exact absurd (List.get?_eq_none.1 hget) (Nat.not_le_of_lt hlt)
  | some e =>
    refine ⟨{ table := t.table.set idx { e with path := some b }
              free_list := t.free_list
              by_path := assocInsert (assocRemove t.by_path a) b idx },
      ?_, ?_, ?_, ?_, ?_, ?_, rfl⟩
    · unfold InodeTable.rename
      rw [ha]
      dsimp only []
      rw [hget]
    · show InodeTable.get_inode _ a = none
      unfold InodeTable.get_inode
      rw [show assocGet (assocInsert (assocRemove t.by_path a) b idx) a
            = assocGet (assocRemove t.by_path a) a from assocGet_insert_ne _ _ hab,
          assocGet_remove_self]
    · show InodeTable.get_inode _ b = some (idx + 1)
      unfold InodeTable.get_inode
      rw [assocGet_insert_self]
    · show InodeTable.get_path _ (idx + 1) = some (some b)
      unfold InodeTable.get_path
      have h0 : idx + 1 ≠ 0 := by omega
      rw [if_neg h0]
      have h1 : idx + 1 - 1 = idx := by omega
      rw [h1]
      rw [List.get?_set_eq_of_lt _ hlt]
    · intro j
      show entryGen (t.table.set idx { e with path := some b }) j = entryGen t.table j
      exact entryGen_set_same t.table idx e { e with path := some b } hget rfl j
    · intro j
      show entryLookups (t.table.set idx { e with path := some b }) j
        = entryLookups t.table j
      exact entryLookups_set_same t.table idx e { e with path := some b } hget rfl j

theorem c4_rename_effect_witness :
    (["a"] : FsPath) ≠ ["b"] ∧ assocGet tAddA.by_path ["a"] = some 1 ∧
    1 < tAddA.table.length ∧
    (∃ t', tAddA.rename ["a"] ["b"] = some t' ∧
      t'.get_inode ["a"] = none ∧
      t'.get_inode ["b"] = some 2 ∧
      t'.get_path 2 = some (some ["b"]) ∧
      (∀ j, genAt t' j = genAt tAddA j) ∧
      (∀ j, lookupsAt t' j = lookupsAt tAddA j) ∧
      t'.free_list = tAddA.free_list) :=
  ⟨by decide, by decide, by decide,
    c4_rename_effect tAddA ["a"] ["b"] 1 (by decide) (by decide) (by decide)⟩

/-! ## Claim C5: unlink tombstones -/

/-- C5. For every inode `idx + 1` whose slot holds path `p` with a positive
lookup count: after `unlink(p)`, `get_path` still returns `Some(p)` while
`get_inode(p) = None`; and this persists through any `forget(idx + 1, n)`
that does not drain the count to zero (`n = 0` covers the state immediately
after the unlink). -/
theorem c5_unlink_tombstone (t : InodeTable) (p : FsPath) (idx n l : Nat)
    (hpath : pathAt t idx = some p) (hl : lookupsAt t idx = some l) (hn : n < l) :
    (t.unlink p).get_path (idx + 1) = some (some p) ∧
    (t.unlink p).get_inode p = none ∧
    ∃ c t2, (t.unlink p).forget (idx + 1) n = some (c, t2) ∧
      t2.get_path (idx + 1) = some (some p) ∧
      t2.get_inode p = none := by
  cases hget : t.table.get? idx with
  | none =>
    rw [show pathAt t idx = none by unfold pathAt entryPath; rw [hget]] at hpath
    cases hpath
  | some e =>
    have hep : e.path = some p := by
      have := hpath
      unfold pathAt entryPath at this
      rw [hget] at this
      exact this
    have hel : e.lookups = l := by
      have := hl
      unfold lookupsAt entryLookups at this
      rw [hget] at this
      exact Option.some.inj this
    have h0 : idx + 1 ≠ 0 := by omega
    have h1 : idx + 1 - 1 = idx := by omega
    have hgp : (t.unlink p).get_path (idx + 1) = some (some p) := by
      unfold InodeTable.get_path InodeTable.unlink
      rw [if_neg h0, h1]
      dsimp only []
      rw [hget]
      dsimp only []
      rw [hep]
    have hgi : (t.unlink p).get_inode p = none := by
      unfold InodeTable.get_inode InodeTable.unlink
      dsimp only []
      rw [assocGet_remove_self]
    refine ⟨hgp, hgi, ?_⟩
    by_cases hi1 : idx + 1 = 1
    · exact ⟨1, t.unlink p,
        (by unfold InodeTable.forget; rw [if_pos hi1] :
          (t.unlink p).forget (idx + 1) n = some (1, t.unlink p)), hgp, hgi⟩
    · refine ⟨l - n, { table := t.table.set idx { e with lookups := e.lookups - n }
                       free_list := t.free_list
                       by_path := assocRemove t.by_path p }, ?_, ?_, ?_⟩
      · unfold InodeTable.forget InodeTable.unlink
        rw [if_neg hi1, if_neg h0]
        dsimp only []
        rw [h1, hget]
        dsimp only []
        rw [if_pos (by omega : n ≤ e.lookups)]
        rw [if_neg (by omega : ¬ e.lookups - n = 0)]
        rw [hel]
      · unfold InodeTable.get_path
        rw [if_neg h0, h1]
        dsimp only []
        rw [List.get?_set_eq_of_lt _ (get?_some_lt hget)]
        dsimp only []
        rw [hep]
      · unfold InodeTable.get_inode
        dsimp only []
        rw [assocGet_remove_self]

theorem c5_unlink_tombstone_witness :
    pathAt tAddA 1 = some ["a"] ∧ lookupsAt tAddA 1 = some 1 ∧ (0 : Nat) < 1 ∧
    ((tAddA.unlink ["a"]).get_path 2 = some (some ["a"]) ∧
      (tAddA.unlink ["a"]).get_inode ["a"] = none ∧
      ∃ c t2, (tAddA.unlink ["a"]).forget 2 0 = some (c, t2) ∧
        t2.get_path 2 = some (some ["a"]) ∧
        t2.get_inode ["a"] = none) :=
  ⟨by decide, by decide, by decide,
    c5_unlink_tombstone tAddA ["a"] 1 0 1 (by decide) (by decide) (by decide)⟩

/-! ## Claim C6: inode 1 is immortal -/

/-- C6. `forget(1, n)` returns 1 and leaves the table untouched for every
table and every `n`; `lookup(1)` is a no-op; and in every table reachable
from `new()` by a panic-free operation sequence, inode 1 remains mapped
(slot 0 is live), is never placed on the free list, and keeps generation 0
(it is never recycled). -/
theorem c6_root_immortal :
    (∀ (t : InodeTable) (n : Nat), t.forget 1 n = some (1, t)) ∧
    (∀ t : InodeTable, t.lookup 1 = some t) ∧
    (∀ (ops : List TableOp) (t : InodeTable), applyOps InodeTable.new ops = some t →
      (pathAt t 0).isSome ∧ 0 ∉ t.free_list ∧ genAt t 0 = some 0) := by
  refine ⟨fun t n => by unfold InodeTable.forget; rw [if_pos rfl],
    fun t => by unfold InodeTable.lookup; rw [if_pos rfl], ?_⟩
  intro ops t h
  have ht := TableInv.reachable h
  exact ⟨ht.root_some, ht.root_not_free, ht.root_gen⟩

theorem c6_root_immortal_witness :
    tAddA.forget 1 5 = some (1, tAddA) ∧
    tAddA.lookup 1 = some tAddA ∧
    applyOps InodeTable.new [.add ["a"]] = some tAddA ∧
    ((pathAt tAddA 0).isSome ∧ 0 ∉ tAddA.free_list ∧ genAt tAddA 0 = some 0) :=
  ⟨c6_root_immortal.1 tAddA 5, c6_root_immortal.2.1 tAddA, by decide,
    c6_root_immortal.2.2 [.add ["a"]] tAddA (by decide)⟩

/-! ## Claim C7: slot reuse, FIFO free list, allocation-time generations -/

/-- A table whose free list already holds two slots (1 then 2), produced by
`add(/x); add(/y); forget(2,1); forget(3,1)`. -/
def c7TwoFree : InodeTable :=
  { table := [{ path := some [], lookups := 0, generation := 0 },
              { path := none, lookups := 0, generation := 0 },
              { path := none, lookups := 0, generation := 0 }]
    free_list := [1, 2]
    by_path := [([], 0)] }

/-- C7 counterexample. From a table state whose free list already holds slot
1 (freed before slot 2): `add(/p)` takes slot 1 (inode 2); `forget(2, 1)`
frees it again, behind slot 2; the subsequent `add(/q)` then returns inode
3 — not inode 2 as the claim requires of every table state. -/
theorem c7_fifo_counterexample :
    applyOps InodeTable.new
      [.add ["x"], .add ["y"], .forget 2 1, .forget 3 1] = some c7TwoFree ∧
    c7TwoFree.add ["p"] =
      some (2, 1,
        { table := [{ path := some [], lookups := 0, generation := 0 },
                    { path := some ["p"], lookups := 1, generation := 1 },
                    { path := none, lookups := 0, generation := 0 }]
          free_list := [2]
          by_path := [(["p"], 1), ([], 0)] }) ∧
    applyOps c7TwoFree [.add ["p"], .forget 2 1] =
      some { table := [{ path := some [], lookups := 0, generation := 0 },
                       { path := none, lookups := 0, generation := 1 },
                       { path := none, lookups := 0, generation := 0 }]
             free_list := [2, 1]
             by_path := [([], 0)] } ∧
    (applyOps c7TwoFree [.add ["p"], .forget 2 1]).bind
      (fun t2 => (t2.add ["q"]).map (fun r => (r.1, r.2.1))) = some (3, 1) := by
  decide

theorem assocRemove_cons_self {α β : Type} [DecidableEq α] (l : List (α × β))
    (k : α) (v : β) : assocRemove ((k, v) :: l) k = assocRemove l k := by
  simp [assocRemove]

/-- C7 (amended). From any table state whose free list is empty (so the slot
allocated for `p` is fresh) with `p`, `q` unmapped and `q ≠ p`: `add(p)`
returns the fresh inode `len + 1` with generation 0, `forget` of it with
count 1 frees the slot, and the subsequent `add(q)` reuses the same inode
`len + 1` with generation 1, strictly greater. In general free slots are
reused in FIFO order — `add` always takes the front (oldest) free-list
entry, so a slot freed while older free slots exist is reused only after
them, which is what breaks the claim's unrestricted form — and the
generation increment happens at allocation of a reused slot: `forget` leaves
every entry's generation unchanged. -/
theorem c7_reuse_generation (t : InodeTable) (p q : FsPath)
    (hlen : 0 < t.table.length) (hfl : t.free_list = [])
    (hp : assocGet t.by_path p = none) (hq : assocGet t.by_path q = none)
    (hpq : q ≠ p) :
    (t.add p = some (t.table.length + 1, 0,
        { table := t.table ++ [{ path := some p, lookups := 1, generation := 0 }]
          free_list := []
          by_path := assocInsert t.by_path p t.table.length }) ∧
      InodeTable.forget
        { table := t.table ++ [{ path := some p, lookups := 1, generation := 0 }]
          free_list := []
          by_path := assocInsert t.by_path p t.table.length }
        (t.table.length + 1) 1 = some (0,
        { table := t.table ++ [{ path := none, lookups := 0, generation := 0 }]
          free_list := [t.table.length]
          by_path := assocRemove (assocRemove t.by_path p) p }) ∧
      InodeTable.add
        { table := t.table ++ [{ path := none, lookups := 0, generation := 0 }]
          free_list := [t.table.length]
          by_path := assocRemove (assocRemove t.by_path p) p }
        q = some (t.table.length + 1, 1,
        { table := t.table ++ [{ path := some q, lookups := 1, generation := 1 }]
          free_list := []
          by_path := assocInsert (assocRemove (assocRemove t.by_path p) p) q
            t.table.length })) ∧
    (∀ (u : InodeTable) (d : Nat) (rest : List Nat) (r : FsPath) (e : InodeTableEntry),
      u.free_list = d :: rest → u.table.get? d = some e →
      assocGet u.by_path r = none →
      u.add r = some (d + 1, e.generation + 1,
        { table := u.table.set d
            { path := some r, lookups := 1, generation := e.generation + 1 }
          free_list := rest
          by_path := assocInsert u.by_path r d })) ∧
    (∀ (u u' : InodeTable) (i n c : Nat), u.forget i n = some (c, u') →
      ∀ j, genAt u' j = genAt u j) := by
  refine ⟨⟨?_, ?_, ?_⟩, ?_, ?_⟩
  · unfold InodeTable.add InodeTable.get_inode_entry
    rw [hfl]
    dsimp only []
    rw [hp]
    dsimp only []
    rw [show t.table.length + 1 - 1 = t.table.length by omega, set_concat_self]
  · unfold InodeTable.forget
    rw [if_neg (by omega : ¬ t.table.length + 1 = 1),
      if_neg (by omega : ¬ t.table.length + 1 = 0)]
    dsimp only []
    rw [show t.table.length + 1 - 1 = t.table.length by omega]
    rw [List.get?_concat_length]
    dsimp only []
    rw [if_pos (by omega : (1 : Nat) ≤ 1), if_pos (by omega : (1 : Nat) - 1 = 0)]
    dsimp only [assocInsert]
    rw [assocRemove_cons_self, set_concat_self]
    rfl
  · unfold InodeTable.add InodeTable.get_inode_entry
    dsimp only []
    rw [List.get?_concat_length]
    dsimp only []
    rw [assocGet_remove_ne _ hpq, assocGet_remove_ne _ hpq, hq]
    dsimp only []
    rw [show t.table.length + 1 - 1 = t.table.length by omega, List.set_set,
      set_concat_self]
  · intro u d rest r e hufl huget hur
    unfold InodeTable.add InodeTable.get_inode_entry
    rw [hufl]
    dsimp only []
    rw [huget]
    dsimp only []
    rw [hur]
    dsimp only []
    rw [show d + 1 - 1 = d by omega, List.set_set]
  · intro u u' i n c h j
    unfold InodeTable.forget at h
    split at h
    next h1 =>
      simp only [Option.some.injEq, Prod.mk.injEq] at h
      rw [← h.2]
    next h1 =>
      split at h
      next h0 => cases h
      next h0 =>
        dsimp only [] at h
        split at h
        next => cases h
        next e hget =>
          split at h
          next hn =>
            split at h
            next hz =>
              split at h
              next hpn => cases h
              next pp hpp =>
                simp only [Option.some.injEq, Prod.mk.injEq] at h
                obtain ⟨-, ht'⟩ := h
                subst ht'
                show entryGen (u.table.set (i - 1)
                  { e with lookups := 0, path := none }) j = entryGen u.table j
                exact entryGen_set_same u.table (i - 1) e
                  { e with lookups := 0, path := none } hget rfl j
            next hz =>
              simp only [Option.some.injEq, Prod.mk.injEq] at h
              obtain ⟨-, ht'⟩ := h
              subst ht'
              show entryGen (u.table.set (i - 1)
                { e with lookups := e.lookups - n }) j = entryGen u.table j
              exact entryGen_set_same u.table (i - 1) e
                { e with lookups := e.lookups - n } hget rfl j
          next hn => cases h

theorem c7_reuse_generation_witness :
    (0 : Nat) < InodeTable.new.table.length ∧
    InodeTable.new.free_list = [] ∧
    assocGet InodeTable.new.by_path ["a"] = none ∧
    assocGet InodeTable.new.by_path ["b"] = none ∧
    InodeTable.new.add ["a"] =
      some (2, 0,
        { table := InodeTable.new.table ++
            [{ path := some ["a"], lookups := 1, generation := 0 }]
          free_list := []
          by_path := assocInsert InodeTable.new.by_path ["a"] 1 }) := by
  refine ⟨by decide, by decide, by decide, by decide, ?_⟩
  exact (c7_reuse_generation InodeTable.new ["a"] ["b"] (by decide) (by decide)
    (by decide) (by decide) (by decide)).1.1

/-! ## Claim C8: unresolved inode → EINVAL, no callback, no state change -/

/-- An empty directory cache. -/
def dcEmpty : DirectoryCache := { next_key := 1, entries := [] }

/-- C8. For each embedded dispatcher handler that resolves an inode to a
path via `get_path!` — `getattr`, `setattr`, `lookup` (parent), `readdir` —
if `get_path` returns `None` the handler replies `EINVAL`, invokes no user
callback (empty call list), and leaves the inode table and directory cache
unchanged. -/
theorem c8_unresolved_inode_einval (fs : UserFS) (t : InodeTable)
    (dc : DirectoryCache) (ino parent fh offset cap : Nat) (name : String)
    (a : SetattrArgs) (h : t.get_path ino = some none)
    (hp : t.get_path parent = some none) :
    getattrHandler fs t ino = some ([], .error EINVAL) ∧
    setattrHandler fs t ino a = some ([], .error EINVAL) ∧
    lookupHandler fs t parent name = some ([], .error EINVAL, t) ∧
    readdirHandler fs t dc ino fh offset cap = some ([], .error EINVAL, dc) := by
  refine ⟨?_, ?_, ?_, ?_⟩
  · unfold getattrHandler
    rw [h]
  · unfold setattrHandler
    rw [h]
  · unfold lookupHandler
    rw [hp]
  · unfold readdirHandler
    rw [h]

theorem c8_unresolved_inode_einval_witness :
    tFreed.get_path 2 = some none ∧
    (getattrHandler defaultFS tFreed 2 = some ([], .error EINVAL) ∧
      setattrHandler defaultFS tFreed 2
        { mode := none, uid := none, gid := none, size := none, atime := none
          mtime := none, fh := none, crtime := none, chgtime := none
          bkuptime := none, flags := none } = some ([], .error EINVAL) ∧
      lookupHandler defaultFS tFreed 2 "x" = some ([], .error EINVAL, tFreed) ∧
      readdirHandler defaultFS tFreed dcEmpty 2 1 0 10 =
        some ([], .error EINVAL, dcEmpty)) :=
  ⟨by decide,
    c8_unresolved_inode_einval defaultFS tFreed dcEmpty 2 2 1 0 10 "x"
      { mode := none, uid := none, gid := none, size := none, atime := none
        mtime := none, fh := none, crtime := none, chgtime := none
        bkuptime := none, flags := none } (by decide) (by decide)⟩

/-! ## Claim C10: get_path is partial; the forget handler unwraps -/

/-- C10. `get_path` on a never-allocated inode — inode 0, or any inode
beyond the current table length — panics (the model's `none`) instead of
returning a `None` value; and the dispatcher's `forget` handler unwraps
`get_path`'s result, so a kernel `forget` on an inode whose slot is free
(`get_path` returns the value `None`) panics rather than being ignored or
answered with an error. -/
theorem c10_get_path_oob_panics :
    (∀ (t : InodeTable) (ino : Nat), ino = 0 ∨ t.table.length < ino →
      t.get_path ino = none) ∧
    (∀ (t : InodeTable) (ino n : Nat), t.get_path ino = some none →
      forgetHandler t ino n = none) := by
  constructor
  · intro t ino h
    unfold InodeTable.get_path
    rcases h with rfl | hgt
    · rw [if_pos rfl]
    · rw [if_neg (by omega : ¬ ino = 0)]
      rw [List.get?_eq_none.2 (by omega : t.table.length ≤ ino - 1)]
  · intro t ino n h
    unfold forgetHandler
    rw [h]

theorem c10_get_path_oob_panics_witness :
    tFreed.get_path 0 = none ∧
    tFreed.get_path 4 = none ∧
    tFreed.get_path 2 = some none ∧
    forgetHandler tFreed 2 1 = none :=
  ⟨c10_get_path_oob_panics.1 tFreed 0 (Or.inl rfl),
    c10_get_path_oob_panics.1 tFreed 4 (Or.inr (by decide)),
    by decide,
    c10_get_path_oob_panics.2 tFreed 2 1 (by decide)⟩

/-! ## Claim C2: lookup, inode stamping and the reply's generation -/

/-- A user filesystem whose `lookup` succeeds with ttl 1, a size-10 regular
attribute and generation 0 — as user filesystems do, since they cannot know
the inode table's generations (`FilesystemMT::lookup` returns its own
`(ttl, attr, generation)` in this snapshot's API). -/
def fsGenZero : UserFS :=
  { defaultFS with lookup := fun _ _ => .ok (1, { ino := 0, size := 10 }, 0) }

/-- Table after `lookup(/foo)` via the dispatcher: `/foo` at inode 2. -/
def c2AfterFoo : InodeTable :=
  { table := [{ path := some [], lookups := 0, generation := 0 },
              { path := some ["foo"], lookups := 1, generation := 0 }]
    free_list := []
    by_path := [(["foo"], 1), ([], 0)] }

/-- Table after the subsequent `forget(2, 1)`: slot 1 free. -/
def c2AfterForget : InodeTable :=
  { table := [{ path := some [], lookups := 0, generation := 0 },
              { path := none, lookups := 0, generation := 0 }]
    free_list := [1]
    by_path := [([], 0)] }

/-- Table after `lookup(/bar)`: slot 1 recycled, generation 1. -/
def c2AfterBar : InodeTable :=
  { table := [{ path := some [], lookups := 0, generation := 0 },
              { path := some ["bar"], lookups := 1, generation := 1 }]
    free_list := []
    by_path := [(["bar"], 1), ([], 0)] }

/-- C2 divergence. On the trace `lookup(/foo)` → `forget(2,1)` →
`lookup(/bar)` against a user callback returning generation 0, the
dispatcher stamps the table's inode (2) into the reply — that part of the
claim holds — but the entry reply for `/bar` carries generation 0, the
value from the user callback, while the table's generation for the
recycled inode 2 is 1: `fusemt.rs` discards the generation component of
`add_or_get`'s result and replies with the user-supplied one. -/
theorem c2_lookup_generation_divergence :
    lookupHandler fsGenZero InodeTable.new 1 "foo" =
      some ([.userLookup [] "foo"],
        .entry 1 { ino := 2, size := 10 } 0, c2AfterFoo) ∧
    forgetHandler c2AfterFoo 2 1 = some (0, c2AfterForget) ∧
    lookupHandler fsGenZero c2AfterForget 1 "bar" =
      some ([.userLookup [] "bar"],
        .entry 1 { ino := 2, size := 10 } 0, c2AfterBar) ∧
    genAt c2AfterBar 1 = some 1 ∧
    (0 : Nat) ≠ 1 := by decide

/-! ## Claim C9: readdir pagination -/

theorem claimEntryIno_eq (a b : Nat) (n : String) :
    claimEntryIno a b n = readdirEntryIno a b n := rfl

/-- The append loop of `readdir`, started on any buffer with room, produces
that buffer followed by the claim's items truncated to the remaining
capacity. -/
theorem readdirLoop_eq_take (dirIno parentIno cap offset : Nat)
    (es : List DirectoryEntry) :
    ∀ (buf : List DirItem) (i : Nat), buf.length ≤ cap →
      readdirLoop dirIno parentIno cap offset buf i es =
        buf ++ (claimItems dirIno parentIno offset i es).take (cap - buf.length) := by
  induction es with
  | nil =>
    intro buf i h
    simp [readdirLoop, claimItems]
  | cons e rest ih =>
    intro buf i h
    unfold readdirLoop replyBufAdd claimItems
    dsimp only []
    by_cases hlt : buf.length < cap
    · rw [if_pos hlt]
      dsimp only []
      rw [ih _ (i + 1) (by simp [Nat.succ_le_of_lt hlt])]
      have hc : cap - buf.length = (cap - (buf.length + 1)) + 1 := by omega
      rw [hc, List.take_succ_cons]
      simp [List.append_assoc, claimEntryIno_eq]
    · rw [if_neg hlt]
      dsimp only []
      have hz : cap - buf.length = 0 := by omega
      rw [hz, List.take_zero, List.append_nil]
      simp

theorem readdirFill_eq_claimPage (t : InodeTable) (path : FsPath)
    (ino offset cap : Nat) (es : List DirectoryEntry) :
    readdirFill t path ino offset cap es = claimPage t path ino offset cap es := by
  unfold readdirFill claimPage
  cases readdirParentIno t path ino with
  | none => rfl
  | some o =>
    cases o with
    | none => rfl
    | some parentIno =>
      dsimp only []
      rw [readdirLoop_eq_take ino parentIno cap offset (es.drop offset) [] 0
        (by simp)]
      simp

/-- C9. The `readdir` handler coincides with the claim's description on
every input: if the cache entry's listing is unpopulated the user's
`readdir(path, real_fh)` is called exactly once and the full list stored
(a populated entry is reused with no user call); each entry appended at
position `index` (counting from the given offset) carries
`offset + index + 1` as its next offset; `.` gets the directory's own
inode, `..` the parent's inode with the root its own parent (reply `EIO`
when the parent's inode is not in the table), and every other name the
sentinel `!1 = 2^64 - 2`; appending stops at the buffer's capacity and the
reply is OK with exactly the items that fit. -/
theorem c9_readdir_pagination (fs : UserFS) (t : InodeTable)
    (dc : DirectoryCache) (ino fh offset cap : Nat) :
    readdirHandler fs t dc ino fh offset cap =
      readdirSpec fs t dc ino fh offset cap := by
  unfold readdirHandler readdirSpec
  cases t.get_path ino with
  | none => rfl
  | some o =>
    cases o with
    | none => rfl
    | some path =>
      dsimp only []
      cases assocGet dc.entries fh with
      | none => rfl
      | some dce =>
        dsimp only []
        cases dce.entries with
        | some es =>
          dsimp only []
          rw [readdirFill_eq_claimPage]
          cases claimPage t path ino offset cap es <;> rfl
        | none =>
          dsimp only []
          cases fs.readdir path dce.fh with
          | error e => rfl
          | ok es =>
            dsimp only []
            rw [readdirFill_eq_claimPage]
            cases claimPage t path ino offset cap es <;> rfl

/-! ## Claim C1 witness -/

/-- A user filesystem whose `getattr` succeeds. -/
def fsAttr : UserFS :=
  { defaultFS with getattr := fun _ _ => .ok (1, { ino := 0, size := 7 }) }

/-- A `setattr` request with every field absent. -/
def argsAllNone : SetattrArgs :=
  { mode := none, uid := none, gid := none, size := none, atime := none
    mtime := none, fh := none, crtime := none, chgtime := none
    bkuptime := none, flags := none }

theorem c1_setattr_splitter_witness :
    InodeTable.new.get_path 1 = some (some []) ∧
    setattrHandler fsAttr InodeTable.new 1 argsAllNone =
      some ([Call.getattr [] none], Reply.attr 1 { ino := 0, size := 7 }) := by
  constructor
  · decide
  · rw [c1_setattr_splitter fsAttr InodeTable.new 1 argsAllNone [] (by decide)]
    decide
